import Mathlib

/-!
Verification development for the packlet repository (adaptive markdown
chunking).  Python strings are modelled as lists of characters, machine
integers as `Nat`/`Int`, and Python's float confidence sentinels as exact
rationals.  Loops whose termination is not structural in the source
(`adaptive_chunk`'s packing loop, regex scanners) are modelled with an
explicit fuel parameter; run-of-the-mill `for` loops become structural
recursion.  All definitions are executable so concrete runs can be checked
with `decide`/`rfl`.
-/

/-- Python `str`, modelled as a list of characters. -/
abbrev Str := List Char

/-- Python whitespace for `str.strip` / `str.split` / regex `\s`
(space, tab, newline, carriage return, vertical tab, form feed). -/
def pySpace (c : Char) : Bool :=
  c == ' ' || c == '\t' || c == '\n' || c == '\r' ||
  c == Char.ofNat 11 || c == Char.ofNat 12

/-- Python `s.strip()`: drop leading and trailing whitespace. -/
def pyStrip (s : Str) : Str :=
  ((s.dropWhile pySpace).reverse.dropWhile pySpace).reverse

/-- Python `sep.join(parts)`. -/
def sepJoin (sep : Str) (parts : List Str) : Str :=
  (parts.intersperse sep).join

/-- The heuristic token counter of `chunker.py` (`_build_token_counter`
fallback): `max(1, len(s) // 4)`. -/
def heurTok (s : Str) : Nat := max 1 (s.length / 4)

/-- The fallback token counter of `generate_chunks.py` (`count_tokens`
exception branch): `len(text) // 4`. -/
def genTok (s : Str) : Nat := s.length / 4

/-- Sum of token counts of a list of pieces, the running `buf_tokens` /
`cur_tokens` totals of `chunker.py`. -/
def sumTok (tok : Str → Nat) (l : List Str) : Nat := (l.map tok).sum

/-- Python `s.split()` with no argument (split on whitespace runs,
dropping empty strings), via fuel; `pySplit` supplies enough fuel (one
unit of fuel consumes at least one character). -/
def pySplitAux : Nat → Str → List Str
  | 0, _ => []
  | _ + 1, [] => []
  | fuel + 1, c :: cs =>
    if pySpace c then pySplitAux fuel cs
    else (c :: cs.takeWhile (fun d => !(pySpace d))) ::
      pySplitAux fuel (cs.dropWhile (fun d => !(pySpace d)))

/-- Python `s.split()`. -/
def pySplit (s : Str) : List Str := pySplitAux (s.length + 1) s

/-- `_hard_cut`'s accumulation loop over the word list (`chunker.py`
lines 96-107): greedy word accumulation against the token budget, where
a word's cost is `tok(w + " ")`. -/
def hardCutGo (tok : Str → Nat) (maxToks : Nat) :
    List Str → List Str → Nat → List Str
  | [], cur, _ =>
    if cur = [] then [] else [pyStrip (sepJoin [' '] cur)]
  | w :: ws, cur, curTokens =>
    let wtok := tok (w ++ [' '])
    if maxToks < curTokens + wtok ∧ cur ≠ [] then
      pyStrip (sepJoin [' '] cur) :: hardCutGo tok maxToks ws [w] wtok
    else
      hardCutGo tok maxToks ws (cur ++ [w]) (curTokens + wtok)

/-- `_hard_cut(s, max_toks, tok)` of `chunker.py`: cut on word boundaries,
flushing the current word group when the next word would overflow. -/
def hard_cut (tok : Str → Nat) (maxToks : Nat) (s : Str) : List Str :=
  hardCutGo tok maxToks (pySplit s) [] 0

/-- The greedy look-ahead packing loop of `adaptive_chunk` (`chunker.py`
lines 126-154), returning the sequence of flushed buffers (each buffer is
the list of pieces of one chunk).  The Python loop mutates `parts` in
place when an oversized piece is hard-cut: `parts.insert(i + 1, sub)` for
each sub-piece inserts them one by one at the same position, which leaves
the sub-pieces *reversed* after the current index; the `i += 1` then skips
the oversized piece itself.  A flush does not advance `i`, so the
overflow-causing piece is reconsidered with an empty buffer.  The loop can
fail to terminate (an irreducible over-budget word is re-inserted
forever), so the model takes fuel and returns `none` on exhaustion. -/
def packLoop (tok : Str → Nat) (maxT minT : Nat) :
    Nat → List Str → List Str → Option (List (List Str))
  | 0, _, _ => none
  | _ + 1, buf, [] => some (if buf = [] then [] else [buf])
  | fuel + 1, buf, p :: rest =>
    let ptok := tok p
    if maxT < ptok then
      -- defensive re-split of an oversized piece (lines 130-135)
      packLoop tok maxT minT fuel buf ((hard_cut tok maxT p).reverse ++ rest)
    else if sumTok tok buf + ptok ≤ maxT then
      packLoop tok maxT minT fuel (buf ++ [p]) rest
    else if sumTok tok buf < minT then
      -- look-ahead merge attempt (line 145): `i < len(parts)` is always
      -- true here, and the second conjunct repeats the failed fit test
      if 0 < (p :: rest).length ∧ sumTok tok buf + ptok ≤ maxT then
        packLoop tok maxT minT fuel (buf ++ [p]) rest
      else
        (packLoop tok maxT minT fuel [] (p :: rest)).map
          (fun bs => if buf = [] then bs else buf :: bs)
    else
      (packLoop tok maxT minT fuel [] (p :: rest)).map
        (fun bs => if buf = [] then bs else buf :: bs)

/-- A chunk of `adaptive_chunk`: `{id, text, n_tokens}` (the constant
`meta` field is omitted). -/
structure PChunk where
  id : Nat
  text : Str
  n_tokens : Nat
deriving DecidableEq

/-- `flush` of `adaptive_chunk` (lines 118-124) applied to every flushed
buffer: `body = "\n\n".join(buf).strip()`, `n = count_tokens(body)`,
`id = len(chunks)` (the position of the chunk). -/
def mkChunks (tok : Str → Nat) (bufs : List (List Str)) : List PChunk :=
  bufs.enum.map (fun ib =>
    let body := pyStrip (sepJoin ['\n', '\n'] ib.2)
    ⟨ib.1, body, tok body⟩)

/-- Steps 2 of `adaptive_chunk`: pre-split pieces to packed chunks. -/
def adaptive_pack (tok : Str → Nat) (maxT minT fuel : Nat)
    (parts : List Str) : Option (List PChunk) :=
  (packLoop tok maxT minT fuel [] parts).map (mkChunks tok)

-- ## Basic lemmas about the string model

theorem length_dropWhile_le (p : Char → Bool) (l : Str) :
    (l.dropWhile p).length ≤ l.length := by
  induction l with
  | nil => simp [List.dropWhile]
  | cons c cs ih =>
    by_cases h : p c <;> simp [List.dropWhile, h] <;> omega

theorem pyStrip_length_le (s : Str) : (pyStrip s).length ≤ s.length := by
  unfold pyStrip
  have h1 := length_dropWhile_le pySpace s
  have h2 := length_dropWhile_le pySpace (s.dropWhile pySpace).reverse
  simp only [List.length_reverse] at *
  omega

theorem pyStrip_of_noSpace (s : Str) (h : ∀ c ∈ s, pySpace c = false) :
    pyStrip s = s := by
  have hd : ∀ t : Str, (∀ c ∈ t, pySpace c = false) → t.dropWhile pySpace = t := by
    intro t ht
    cases t with
    | nil => rfl
    | cons c cs => simp [List.dropWhile, ht c (by simp)]
  unfold pyStrip
  rw [hd s h, hd s.reverse (by intro c hc; exact h c (List.mem_reverse.mp hc)),
    List.reverse_reverse]

theorem sumTok_append (tok : Str → Nat) (l₁ l₂ : List Str) :
    sumTok tok (l₁ ++ l₂) = sumTok tok l₁ + sumTok tok l₂ := by
  simp [sumTok]

theorem sumTok_nil (tok : Str → Nat) : sumTok tok [] = 0 := rfl

-- ## Word accounting for the hard cut

/-- Each word of a split costs its length plus one separating character;
`wordsLen` is the natural size measure for `s.split()` results. -/
def wordsLen (ws : List Str) : Nat := (ws.map (fun w => w.length + 1)).sum

theorem wordsLen_cons (w : Str) (ws : List Str) :
    wordsLen (w :: ws) = w.length + 1 + wordsLen ws := by
  simp [wordsLen]

theorem wordsLen_append (l₁ l₂ : List Str) :
    wordsLen (l₁ ++ l₂) = wordsLen l₁ + wordsLen l₂ := by
  simp [wordsLen]

theorem dropWhile_head_false (p : Char → Bool) :
    ∀ (l : Str) (d : Char) (ds : Str), l.dropWhile p = d :: ds → p d = false := by
  intro l
  induction l with
  | nil => intro d ds h; simp [List.dropWhile] at h
  | cons c cs ih =>
    intro d ds h
    by_cases hc : p c
    · rw [List.dropWhile_cons, if_pos hc] at h
      exact ih d ds h
    · rw [List.dropWhile_cons, if_neg hc] at h
      cases h
      simpa using hc

theorem pySplitAux_nil (fuel : Nat) : pySplitAux fuel [] = [] := by
  cases fuel <;> rfl

/-- Every word of `s.split()` is nonempty and whitespace-free. -/
theorem pySplitAux_mem :
    ∀ (fuel : Nat) (s : Str) (w : Str), w ∈ pySplitAux fuel s →
      w ≠ [] ∧ ∀ c ∈ w, pySpace c = false := by
  intro fuel
  induction fuel with
  | zero => intro s w h; simp [pySplitAux] at h
  | succ fuel ih =>
    intro s w h
    cases s with
    | nil => simp [pySplitAux] at h
    | cons c cs =>
      simp only [pySplitAux] at h
      by_cases hc : pySpace c
      · rw [if_pos hc] at h
        exact ih cs w h
      · rw [if_neg hc] at h
        rcases List.mem_cons.mp h with h | h
        · subst h
          refine ⟨by simp, ?_⟩
          intro x hx
          rcases List.mem_cons.mp hx with hx | hx
          · subst hx; simpa using hc
          · have := List.mem_takeWhile_imp hx
            simpa using this
        · exact ih _ w h

/-- The words of `s.split()`, with one separator each, never outweigh the
input (plus one for the missing final separator). -/
theorem pySplitAux_wordsLen :
    ∀ (fuel : Nat) (s : Str), s.length < fuel →
      wordsLen (pySplitAux fuel s) ≤ s.length + 1 := by
  intro fuel
  induction fuel using Nat.strong_induction_on with
  | _ fuel ih =>
    intro s hs
    cases fuel with
    | zero => omega
    | succ f =>
      cases s with
      | nil => simp [pySplitAux, wordsLen]
      | cons c cs =>
        simp only [pySplitAux]
        by_cases hc : pySpace c
        · rw [if_pos hc]
          have := ih f (by omega) cs (by simp at hs; omega)
          simp only [List.length_cons]
          omega
        · rw [if_neg hc]
          have hlen : (cs.takeWhile (fun d => !(pySpace d))).length
              + (cs.dropWhile (fun d => !(pySpace d))).length = cs.length := by
            rw [← List.length_append, List.takeWhile_append_dropWhile]
          rw [wordsLen_cons]
          cases hd : cs.dropWhile (fun d => !(pySpace d)) with
          | nil =>
            rw [pySplitAux_nil]
            rw [hd] at hlen
            simp only [List.length_cons, List.length_nil, wordsLen,
              List.map_nil, List.sum_nil] at *
            omega
          | cons d0 ds =>
            have hd0 : pySpace d0 = true := by
              have := dropWhile_head_false (fun x => !(pySpace x)) cs d0 ds hd
              simpa using this
            rw [hd] at hlen
            cases f with
            | zero => simp only [List.length_cons] at hs; omega
            | succ g =>
              have hunf : pySplitAux (g + 1) (d0 :: ds) = pySplitAux g ds := by
                simp [pySplitAux, hd0]
              rw [hunf]
              have hg := ih g (by omega) ds
                (by simp only [List.length_cons] at hs hlen ⊢; omega)
              simp only [List.length_cons] at *
              omega

theorem sepJoin_cons_cons (sep x y : Str) (t : List Str) :
    sepJoin sep (x :: y :: t) = x ++ (sep ++ sepJoin sep (y :: t)) := rfl

theorem sepJoin_single (sep x : Str) : sepJoin sep [x] = x := by
  simp [sepJoin]

theorem sepJoin_space_length :
    ∀ (l : List Str), l ≠ [] → (sepJoin [' '] l).length + 1 = wordsLen l := by
  intro l
  induction l with
  | nil => intro h; exact absurd rfl h
  | cons x t ih =>
    intro _
    cases t with
    | nil => simp [sepJoin_single, wordsLen]
    | cons y u =>
      rw [sepJoin_cons_cons, wordsLen_cons]
      have := ih (by simp)
      simp only [List.length_append, List.length_cons, List.length_nil] at *
      omega

/-- Every piece flushed by `_hard_cut`'s loop is a rejoining of some of
the pending and remaining words, so its length (plus one) stays within
the combined word budget. -/
theorem hardCutGo_piece_le (tok : Str → Nat) (maxT : Nat) :
    ∀ (ws cur : List Str) (ct : Nat) (p : Str),
      p ∈ hardCutGo tok maxT ws cur ct →
      p.length + 1 ≤ wordsLen cur + wordsLen ws := by
  intro ws
  induction ws with
  | nil =>
    intro cur ct p hp
    simp only [hardCutGo] at hp
    by_cases hc : cur = []
    · simp [hc] at hp
    · rw [if_neg hc] at hp
      simp only [List.mem_singleton] at hp
      subst hp
      have h1 := pyStrip_length_le (sepJoin [' '] cur)
      have h2 := sepJoin_space_length cur hc
      simp only [wordsLen, List.map_nil, List.sum_nil] at *
      omega
  | cons w ws ih =>
    intro cur ct p hp
    simp only [hardCutGo] at hp
    by_cases hft : maxT < ct + tok (w ++ [' ']) ∧ cur ≠ []
    · rw [if_pos hft] at hp
      rcases List.mem_cons.mp hp with hp | hp
      · subst hp
        have h1 := pyStrip_length_le (sepJoin [' '] cur)
        have h2 := sepJoin_space_length cur hft.2
        rw [wordsLen_cons]
        omega
      · have hih := ih [w] _ p hp
        have hw1 : wordsLen [w] = w.length + 1 := by simp [wordsLen]
        rw [hw1] at hih
        rw [wordsLen_cons]
        omega
    · rw [if_neg hft] at hp
      have hih := ih (cur ++ [w]) _ p hp
      rw [wordsLen_append] at hih
      have hw1 : wordsLen [w] = w.length + 1 := by simp [wordsLen]
      rw [hw1] at hih
      rw [wordsLen_cons]
      omega

/-- `_hard_cut` on a single-word input emits the word as-is. -/
theorem hard_cut_single (tok : Str → Nat) (maxT : Nat) (s w : Str)
    (h : pySplit s = [w]) : hard_cut tok maxT s = [w] := by
  have hw : ∀ c ∈ w, pySpace c = false :=
    (pySplitAux_mem (s.length + 1) s w (by rw [pySplit] at h; rw [h]; simp)).2
  unfold hard_cut
  rw [h]
  simp only [hardCutGo]
  rw [if_neg (by simp)]
  simp only [List.nil_append, hardCutGo]
  rw [if_neg (by simp), sepJoin_single, pyStrip_of_noSpace w hw]

-- ## Packing loop invariants

/-- If every piece fits the budget, the defensive re-split never fires and
the flushed buffers concatenate to the pending buffer followed by the
remaining pieces. -/
theorem packLoop_join (tok : Str → Nat) (maxT minT : Nat) :
    ∀ (fuel : Nat) (buf parts : List Str) (bufs : List (List Str)),
      (∀ p ∈ parts, tok p ≤ maxT) →
      packLoop tok maxT minT fuel buf parts = some bufs →
      bufs.join = buf ++ parts := by
  intro fuel
  induction fuel with
  | zero => intro buf parts bufs _ h; simp [packLoop] at h
  | succ fuel ih =>
    intro buf parts bufs hall h
    cases parts with
    | nil =>
      simp only [packLoop, Option.some.injEq] at h
      subst h
      by_cases hb : buf = [] <;> simp [hb]
    | cons p rest =>
      have hp : tok p ≤ maxT := hall p (by simp)
      have hrest : ∀ q ∈ rest, tok q ≤ maxT := fun q hq => hall q (by simp [hq])
      simp only [packLoop] at h
      rw [if_neg (by omega)] at h
      by_cases h2 : sumTok tok buf + tok p ≤ maxT
      · rw [if_pos h2] at h
        have := ih (buf ++ [p]) rest bufs hrest h
        simpa using this
      · rw [if_neg h2] at h
        have hflush :
            (packLoop tok maxT minT fuel [] (p :: rest)).map
                (fun bs => if buf = [] then bs else buf :: bs) = some bufs := by
          by_cases h3 : sumTok tok buf < minT
          · rw [if_pos h3, if_neg (fun hc => h2 hc.2)] at h; exact h
          · rw [if_neg h3] at h; exact h
        obtain ⟨bs, hbs, hmap⟩ := Option.map_eq_some'.mp hflush
        have hjoin : bs.join = p :: rest := by
          simpa using ih [] (p :: rest) bs hall hbs
        by_cases hb : buf = []
        · simp [hb] at hmap; subst hmap; simp [hb, hjoin]
        · simp [hb] at hmap; subst hmap; simp [hjoin]

/-- Both `buf.append` sites are guarded by the fit test, so every flushed
buffer has a piece-token sum within the maximum budget. -/
theorem packLoop_sum_le (tok : Str → Nat) (maxT minT : Nat) :
    ∀ (fuel : Nat) (buf parts : List Str) (bufs : List (List Str)),
      sumTok tok buf ≤ maxT →
      packLoop tok maxT minT fuel buf parts = some bufs →
      ∀ b ∈ bufs, sumTok tok b ≤ maxT := by
  intro fuel
  induction fuel with
  | zero => intro buf parts bufs _ h; simp [packLoop] at h
  | succ fuel ih =>
    intro buf parts bufs hbuf h
    cases parts with
    | nil =>
      simp only [packLoop] at h
      by_cases hb : buf = []
      · simp [hb] at h; subst h; simp
      · simp [hb] at h; subst h; simpa using hbuf
    | cons p rest =>
      simp only [packLoop] at h
      by_cases h1 : maxT < tok p
      · rw [if_pos h1] at h
        exact ih buf _ bufs hbuf h
      · rw [if_neg h1] at h
        by_cases h2 : sumTok tok buf + tok p ≤ maxT
        · rw [if_pos h2] at h
          exact ih (buf ++ [p]) rest bufs (by simpa [sumTok_append, sumTok] using h2) h
        · rw [if_neg h2] at h
          have hflush :
              (packLoop tok maxT minT fuel [] (p :: rest)).map
                  (fun bs => if buf = [] then bs else buf :: bs) = some bufs := by
            by_cases h3 : sumTok tok buf < minT
            · rw [if_pos h3, if_neg (fun hc => h2 hc.2)] at h; exact h
            · rw [if_neg h3] at h; exact h
          obtain ⟨bs, hbs, hmap⟩ := Option.map_eq_some'.mp hflush
          have hrec := ih [] (p :: rest) bs (by simp [sumTok]) hbs
          intro b hb
          by_cases hbe : buf = []
          · simp [hbe] at hmap; subst hmap; exact hrec b hb
          · simp [hbe] at hmap; subst hmap
            rcases List.mem_cons.mp hb with hb | hb
            · subst hb; exact hbuf
            · exact hrec b hb

-- ## Claims C1-C3 (the greedy packer)

/-- C1 counterexample: the claim that the concatenation of the emitted
chunks reconstructs the document modulo whitespace normalization fails
when an oversized piece reaches the packing loop: the defensive re-split
inserts the hard-cut sub-pieces one by one at `i + 1`, leaving them in
reversed order.  Input piece `"aaaaaaa bbbbbbbb"` (4 heuristic tokens,
budget 2) comes out as the chunks `"bbbbbbbb", "aaaaaaa"` — the words of
the document in reversed order, so no whitespace normalization can match
them, and the original piece appears in no chunk. -/
theorem pack_coverage_counterexample :
    (adaptive_pack heurTok 2 1 9 [("aaaaaaa bbbbbbbb".toList)]).map
        (List.map PChunk.text)
      = some [("bbbbbbbb".toList), ("aaaaaaa".toList)]
    ∧ pySplit ("aaaaaaa bbbbbbbb".toList)
      = [("aaaaaaa".toList), ("bbbbbbbb".toList)]
    ∧ ([("bbbbbbbb".toList), ("aaaaaaa".toList)] : List Str)
      ≠ [("aaaaaaa".toList), ("bbbbbbbb".toList)] :=
  ⟨by decide, by decide, by decide⟩

/-- C1 (amended): for piece sequences in which every piece's token count
is at most `max_tokens` (so the reversing defensive re-split never fires),
the packing loop is covering: the concatenation of the chunks' piece lists
is exactly the input piece sequence — every piece appears in exactly one
chunk, in input order, and no content is dropped. -/
theorem pack_coverage (tok : Str → Nat) (maxT minT fuel : Nat)
    (parts : List Str) (bufs : List (List Str))
    (hall : ∀ p ∈ parts, tok p ≤ maxT)
    (h : packLoop tok maxT minT fuel [] parts = some bufs) :
    bufs.join = parts := by
  simpa using packLoop_join tok maxT minT fuel [] parts bufs hall h

/-- Witness for `pack_coverage` at a concrete two-piece input. -/
theorem pack_coverage_witness :
    ([[("aaaa".toList), ("bbbb".toList)]] : List (List Str)).join
      = [("aaaa".toList), ("bbbb".toList)] :=
  pack_coverage heurTok 10 0 9 [("aaaa".toList), ("bbbb".toList)]
    [[("aaaa".toList), ("bbbb".toList)]] (by decide) (by decide)

/-- C2 counterexample.  First input (budget `[8, 10]`): pieces of 5 and 8
heuristic tokens.  The look-ahead condition repeats the failed fit test,
so the 5-token buffer is flushed although it is below `min_tokens = 8`:
the *non-final* first chunk has `n_tokens = 5 < 8`, and it is not an
irreducible oversized piece (its only piece has 5 ≤ 10 tokens).  Second
input (budget `[0, 5]`): five pieces of 1 token each are all accepted
(running sum 5 ≤ 5), but the flushed body rejoined with `"\n\n"` counts
10 heuristic tokens, so the reported `n_tokens = 10` exceeds
`max_tokens = 5` — the claimed interval fails on both sides. -/
theorem pack_budget_counterexample :
    (adaptive_pack heurTok 10 8 9
        [("aaaaaaaaaaaaaaaaaaaa".toList),
         ("bbbbbbbbbbbbbbbbbbbbbbbbbbbbbbbb".toList)]).map
        (List.map PChunk.n_tokens)
      = some [5, 8]
    ∧ ¬ (8 ≤ 5)
    ∧ heurTok ("aaaaaaaaaaaaaaaaaaaa".toList) ≤ 10
    ∧ (adaptive_pack heurTok 5 0 9
        [("aaaaaaa".toList), ("aaaaaaa".toList), ("aaaaaaa".toList),
         ("aaaaaaa".toList), ("aaaaaaa".toList)]).map
        (List.map PChunk.n_tokens)
      = some [10]
    ∧ ¬ (10 ≤ 5) :=
  ⟨by decide, by decide, by decide, by decide, by decide⟩

/-- C2 (amended): the budget bound that the greedy packer actually
guarantees is on the accumulator: every produced chunk's sum of
constituent piece token counts is at most `max_tokens`.  The
`min_tokens` lower bound can fail for non-final chunks (the look-ahead
never fires), and the token count of the rejoined chunk body can exceed
`max_tokens` under the heuristic counter. -/
theorem pack_piece_sum_le_max (tok : Str → Nat) (maxT minT fuel : Nat)
    (parts : List Str) (bufs : List (List Str))
    (h : packLoop tok maxT minT fuel [] parts = some bufs) :
    ∀ b ∈ bufs, sumTok tok b ≤ maxT :=
  packLoop_sum_le tok maxT minT fuel [] parts bufs (by simp [sumTok]) h

/-- Witness for `pack_piece_sum_le_max` at a concrete input. -/
theorem pack_piece_sum_le_max_witness :
    sumTok heurTok [("cccccccc".toList), ("dddd".toList)] ≤ 7 :=
  pack_piece_sum_le_max heurTok 7 0 9 [("cccccccc".toList), ("dddd".toList)]
    [[("cccccccc".toList), ("dddd".toList)]] (by decide)
    [("cccccccc".toList), ("dddd".toList)] (by decide)

/-- C3: when adding the next piece would exceed `max_tokens` (`h2`, with
the piece itself within budget, `h1`) and the accumulator is below
`min_tokens` (`h3`), the packer evaluates the single look-ahead condition
`i < len(parts) and buf_tokens + ptok <= max_tokens`; the accept branch
requires the overflow-causing piece to still fit, which `h2` rules out,
so the loop flushes the accumulator as a completed chunk and restarts
with that piece as the new accumulator — exactly the claimed behaviour
(the accept clause of the claim holds vacuously under its premise). -/
theorem pack_lookahead_flush (tok : Str → Nat) (maxT minT fuel : Nat)
    (buf : List Str) (p : Str) (rest : List Str)
    (h1 : tok p ≤ maxT) (h2 : maxT < sumTok tok buf + tok p)
    (h3 : sumTok tok buf < minT) :
    packLoop tok maxT minT (fuel + 2) buf (p :: rest)
      = (packLoop tok maxT minT fuel [p] rest).map (fun bs => buf :: bs) := by
  have hbuf : ¬ (buf = []) := by
    intro he
    rw [he, sumTok_nil] at h2
    omega
  have step1 : packLoop tok maxT minT (fuel + 2) buf (p :: rest)
      = (packLoop tok maxT minT (fuel + 1) [] (p :: rest)).map
          (fun bs => if buf = [] then bs else buf :: bs) := by
    simp only [packLoop]
    rw [if_neg (by omega), if_neg (by omega), if_pos h3,
      if_neg (fun hc => absurd hc.2 (by omega))]
  have step2 : packLoop tok maxT minT (fuel + 1) [] (p :: rest)
      = packLoop tok maxT minT fuel [p] rest := by
    simp only [packLoop]
    rw [if_neg (by omega), if_pos (by simpa [sumTok] using h1)]
    simp
  rw [step1, step2]
  simp [hbuf]

/-- Witness for `pack_lookahead_flush`: a 5-token buffer meeting an
8-token piece under budget `[8, 10]` flushes and restarts. -/
theorem pack_lookahead_flush_witness :
    heurTok ("bbbbbbbbbbbbbbbbbbbbbbbbbbbbbbbb".toList) ≤ 10
    ∧ 10 < sumTok heurTok [("aaaaaaaaaaaaaaaaaaaa".toList)]
        + heurTok ("bbbbbbbbbbbbbbbbbbbbbbbbbbbbbbbb".toList)
    ∧ sumTok heurTok [("aaaaaaaaaaaaaaaaaaaa".toList)] < 8
    ∧ packLoop heurTok 10 8 3 [("aaaaaaaaaaaaaaaaaaaa".toList)]
        [("bbbbbbbbbbbbbbbbbbbbbbbbbbbbbbbb".toList)]
      = (packLoop heurTok 10 8 1 [("bbbbbbbbbbbbbbbbbbbbbbbbbbbbbbbb".toList)] []).map
          (fun bs => [("aaaaaaaaaaaaaaaaaaaa".toList)] :: bs) :=
  ⟨by decide, by decide, by decide,
    pack_lookahead_flush heurTok 10 8 1 [("aaaaaaaaaaaaaaaaaaaa".toList)]
      ("bbbbbbbbbbbbbbbbbbbbbbbbbbbbbbbb".toList) [] (by decide) (by decide) (by decide)⟩

-- ## Claim C9 (the hard word-boundary cut)

/-- C9 counterexample: on the two-word input `"a b"` with a generous
budget, `_hard_cut` emits the single piece `"a b"`, whose heuristic token
count equals (is not strictly fewer than) the input's — the strict
reduction claimed for every multi-word input fails. -/
theorem hard_cut_counterexample :
    hard_cut heurTok 100 ("a b".toList) = [("a b".toList)]
    ∧ 1 < (pySplit ("a b".toList)).length
    ∧ ¬ (heurTok ("a b".toList) < heurTok ("a b".toList)) :=
  ⟨by decide, by decide, by decide⟩

/-- C9 (amended): `_hard_cut` is total by construction (primitive
recursion over the word list, so it terminates on every input); under the
heuristic counter every produced piece has *at most as many* tokens as
the input (strict reduction can fail, see the counterexample); and an
input consisting of a single word — in particular one whose token count
alone exceeds the budget — is emitted as-is as one piece, never recursed
into and never an error. -/
theorem hard_cut_bounds (maxT : Nat) (s : Str) :
    (∀ p ∈ hard_cut heurTok maxT s, heurTok p ≤ heurTok s)
    ∧ (∀ w, pySplit s = [w] → hard_cut heurTok maxT s = [w]) := by
  constructor
  · intro p hp
    have h1 := hardCutGo_piece_le heurTok maxT (pySplit s) [] 0 p hp
    have h2 : wordsLen (pySplit s) ≤ s.length + 1 :=
      pySplitAux_wordsLen (s.length + 1) s (by omega)
    have h0 : wordsLen ([] : List Str) = 0 := rfl
    have hlen : p.length ≤ s.length := by omega
    have hdiv : p.length / 4 ≤ s.length / 4 := Nat.div_le_div_right hlen
    exact max_le_max le_rfl hdiv
  · intro w hw
    exact hard_cut_single heurTok maxT s w hw

/-- Witness for `hard_cut_bounds`: a single word over the budget is
emitted unchanged. -/
theorem hard_cut_bounds_witness :
    hard_cut heurTok 1 ("hello".toList) = [("hello".toList)] :=
  (hard_cut_bounds 1 ("hello".toList)).2 ("hello".toList) (by decide)

-- ## Sentence splitting (`split_sentences` of chunker.py)

/-- Characters allowed to open a sentence after a split point — the
lookahead class of the sentence regex of `chunker.py`. -/
def sentStart (c : Char) : Bool :=
  ('A' ≤ c && c ≤ 'Z') || ('0' ≤ c && c ≤ '9') ||
  c == '"' || c == Char.ofNat 39 || c == Char.ofNat 8220 || c == '('

/-- Sentence-terminal punctuation of the lookbehind. -/
def sentPunct (c : Char) : Bool := c == '.' || c == '!' || c == '?'

/-- Lookbehind test at the start of a whitespace run: the two preceding
characters must be a non-space character followed by punctuation. -/
def lookbehindOk (p2 p1 : Option Char) : Bool :=
  match p2, p1 with
  | some a, some b => !(pySpace a) && sentPunct b
  | _, _ => false

/-- The last two characters of the stream after also consuming `run`,
carried along so the lookbehind can be evaluated at later positions. -/
def ctxAfter : Option Char → Option Char → Str → Option Char × Option Char
  | p2, p1, [] => (p2, p1)
  | _, p1, c :: rest => ctxAfter p1 (some c) rest

/-- The scan of `_SENT_RE.split`: a whitespace run whose two preceding
characters satisfy the lookbehind and whose following character is in the
lookahead class is a separator (removed, ending the current segment).  No
match can begin inside a whitespace run (the lookbehind would see
whitespace there), so a non-separating run is consumed whole.  Each step
consumes at least one character, so `length + 1` fuel always suffices. -/
def sentGo : Nat → Option Char → Option Char → Str → Str → List Str
  | 0, _, _, acc, _ => [acc]
  | _ + 1, _, _, acc, [] => [acc]
  | fuel + 1, p2, p1, acc, c :: rest =>
    if pySpace c ∧ lookbehindOk p2 p1 then
      let run := c :: rest.takeWhile pySpace
      let after := rest.dropWhile pySpace
      match after with
      | [] => [acc ++ run]
      | d :: _ =>
        if sentStart d then
          acc :: sentGo fuel (ctxAfter p2 p1 run).1 (ctxAfter p2 p1 run).2 [] after
        else
          sentGo fuel (ctxAfter p2 p1 run).1 (ctxAfter p2 p1 run).2 (acc ++ run) after
    else
      sentGo fuel p1 (some c) (acc ++ [c]) rest

/-- `_SENT_RE.split(s)`. -/
def sentRegexSplit (s : Str) : List Str := sentGo (s.length + 1) none none [] s

/-- A triple-backtick fence marker. -/
def fence3 : Str := ("```".toList)

/-- Prefix test: does `needle` begin `hay`? -/
def pref : Str → Str → Bool
  | [], _ => true
  | _ :: _, [] => false
  | c :: cs, d :: ds => c == d && pref cs ds

/-- Python `hay.find(needle)` as an option (the empty needle matches at
index 0, as in Python). -/
def find : Str → Str → Option Nat
  | hay, needle =>
    if pref needle hay then some 0
    else
      match hay with
      | [] => none
      | _ :: t => (find t needle).map (fun i => i + 1)

/-- The fenced-code pass of `split_sentences`: `re.finditer` over
non-greedy ` ``` … ``` ` pairs.  A matched block is tagged `true`, the
text around it `false`; an opening fence with no closing fence matches
nothing, so the rest of the text is plain.  Each match consumes at least
six characters, so `length + 1` fuel always suffices. -/
def fenceSplit : Nat → Str → List (Bool × Str)
  | 0, s => [(false, s)]
  | fuel + 1, s =>
    match find s fence3 with
    | none => [(false, s)]
    | some i =>
      match find (s.drop (i + 3)) fence3 with
      | none => [(false, s)]
      | some j =>
        (false, s.take i) ::
          (true, (s.drop i).take (j + 6)) ::
            fenceSplit fuel (s.drop (i + 3 + j + 3))

/-- `split_sentences` of `chunker.py`: keep fenced code blocks intact,
apply the sentence regex to the stripped non-empty text segments, then
strip every block and drop the empties. -/
def split_sentences (text : Str) : List Str :=
  let blocks := (fenceSplit (text.length + 1) text).flatMap
    (fun bs =>
      if bs.1 then [bs.2]
      else if bs.2 = [] then [] else sentRegexSplit (pyStrip bs.2))
  (blocks.map pyStrip).filter (fun b => !(b.isEmpty))

-- ## Overlap injection (`adaptive_chunk` step 3)

/-- Python `l[-k:]` for `k > 0`. -/
def takeLast {α : Type} (k : Nat) (l : List α) : List α :=
  l.drop (l.length - k)

/-- The update of one chunk by the overlap pass (`chunker.py` lines
159-161): prepend the last `overlap_sentences` sentences of the
predecessor's *current* text, strip, and recount tokens; `id` is kept. -/
def overlap_step (tok : Str → Nat) (k : Nat) (prev cur : PChunk) : PChunk :=
  let t := pyStrip
    (sepJoin [' '] (takeLast k (split_sentences prev.text)) ++ ' ' :: cur.text)
  ⟨cur.id, t, tok t⟩

/-- The forward in-place loop of overlap injection: each *updated* chunk
is the predecessor seen by the next iteration (the source reads
`chunks[j - 1]["text"]` after it was overwritten at `j - 1`). -/
def injectGo (tok : Str → Nat) (k : Nat) : PChunk → List PChunk → List PChunk
  | _, [] => []
  | prev, c :: cs =>
    let c2 := overlap_step tok k prev c
    c2 :: injectGo tok k c2 cs

/-- Step 3 of `adaptive_chunk` (lines 156-161), applied only when
`overlap_sentences > 0` and there is more than one chunk. -/
def add_overlap (tok : Str → Nat) (k : Nat) (chunks : List PChunk) :
    List PChunk :=
  if 0 < k ∧ 1 < chunks.length then
    match chunks with
    | [] => []
    | c :: cs => c :: injectGo tok k c cs
  else chunks

theorem injectGo_length (tok : Str → Nat) (k : Nat) :
    ∀ (l : List PChunk) (p : PChunk), (injectGo tok k p l).length = l.length := by
  intro l
  induction l with
  | nil => intro p; rfl
  | cons c cs ih => intro p; simp [injectGo, ih]

/-- Indexed characterization of the in-place pass: the element at `j + 1`
of the result is the `overlap_step` of the result's element at `j` (the
already-updated predecessor) with the original chunk at `j + 1`. -/
theorem injectGo_get? (tok : Str → Nat) (k : Nat) :
    ∀ (l : List PChunk) (p : PChunk) (j : Nat) (prev cur : PChunk),
      (p :: injectGo tok k p l).get? j = some prev →
      l.get? j = some cur →
      (injectGo tok k p l).get? j = some (overlap_step tok k prev cur) := by
  intro l
  induction l with
  | nil => intro p j prev cur _ h2; simp at h2
  | cons c cs ih =>
    intro p j prev cur h1 h2
    cases j with
    | zero =>
      simp only [List.get?_cons_zero, Option.some.injEq] at h1 h2
      subst h1
      subst h2
      simp [injectGo]
    | succ j =>
      have h2' : cs.get? j = some cur := by simpa using h2
      have h1' : ((overlap_step tok k p c) ::
          injectGo tok k (overlap_step tok k p c) cs).get? j = some prev := by
        simpa [injectGo] using h1
      have := ih (overlap_step tok k p c) j prev cur h1' h2'
      simpa [injectGo] using this

-- ## Claim C4 (overlap injection)

/-- C4 counterexample: with `overlap_sentences = 2` and the chunks
`"A one. B two. C three." / "D four." / "E five."`, the third chunk
receives `"C three."` — a sentence of chunk 0 that had just been injected
into chunk 1 — because the pass reads the predecessor's already-updated
text.  The claim's pre-overlap source would have produced
`"D four. E five."` instead. -/
theorem overlap_cascade_counterexample :
    ((add_overlap heurTok 2
        [⟨0, ("A one. B two. C three.".toList), 5⟩,
         ⟨1, ("D four.".toList), 1⟩,
         ⟨2, ("E five.".toList), 1⟩]).map PChunk.text).get? 2
      = some ("C three. D four. E five.".toList)
    ∧ ("C three. D four. E five.".toList)
      ≠ pyStrip (sepJoin [' ']
          (takeLast 2 (split_sentences ("D four.".toList)))
            ++ ' ' :: ("E five.".toList)) :=
  ⟨by decide, by decide⟩

/-- C4 (amended): for more than one chunk and a positive sentence count,
the first chunk's text is never modified and the pass is forward-only and
single-pass; but each subsequent chunk's prepended overlap is taken from
the text of its immediate predecessor *as already updated by the pass*
(so for the third chunk onward the source can itself contain injected
overlap — a cascade is possible, e.g. when a chunk holds fewer sentences
than `overlap_sentences`). -/
theorem overlap_first_and_source (tok : Str → Nat) (k : Nat)
    (chunks : List PChunk) (hk : 0 < k) (hlen : 1 < chunks.length) :
    (add_overlap tok k chunks).get? 0 = chunks.get? 0
    ∧ (add_overlap tok k chunks).length = chunks.length
    ∧ ∀ (j : Nat) (prev cur : PChunk),
        (add_overlap tok k chunks).get? j = some prev →
        chunks.get? (j + 1) = some cur →
        (add_overlap tok k chunks).get? (j + 1)
          = some (overlap_step tok k prev cur) := by
  unfold add_overlap
  rw [if_pos ⟨hk, hlen⟩]
  cases chunks with
  | nil => simp at hlen
  | cons c cs =>
    refine ⟨by simp, by simp [injectGo_length], ?_⟩
    intro j prev cur h1 h2
    have h2' : cs.get? j = some cur := by simpa using h2
    have := injectGo_get? tok k cs c j prev cur h1 h2'
    simpa using this

/-- Witness for `overlap_first_and_source` on two concrete chunks. -/
theorem overlap_first_and_source_witness :
    (add_overlap heurTok 1 [⟨0, ("A.".toList), 1⟩, ⟨1, ("B.".toList), 1⟩]).get? 0
      = ([⟨0, ("A.".toList), 1⟩, ⟨1, ("B.".toList), 1⟩] : List PChunk).get? 0
    ∧ (add_overlap heurTok 1 [⟨0, ("A.".toList), 1⟩, ⟨1, ("B.".toList), 1⟩]).length
      = ([⟨0, ("A.".toList), 1⟩, ⟨1, ("B.".toList), 1⟩] : List PChunk).length := by
  have h := overlap_first_and_source heurTok 1
    [⟨0, ("A.".toList), 1⟩, ⟨1, ("B.".toList), 1⟩] (by decide) (by decide)
  exact ⟨h.1, h.2.1⟩

-- ## find / prefix facts

theorem pref_sound : ∀ (n h : Str), pref n h = true → n <+: h := by
  intro n
  induction n with
  | nil => intro h _; exact List.nil_prefix
  | cons c cs ih =>
    intro h hp
    cases h with
    | nil => simp [pref] at hp
    | cons d ds =>
      simp only [pref, Bool.and_eq_true, beq_iff_eq] at hp
      obtain ⟨rfl, hp⟩ := hp
      obtain ⟨t, ht⟩ := ih ds hp
      exact ⟨t, by rw [← ht]; rfl⟩

/-- Soundness of `find`: a returned index is in range and the needle is a
prefix of the haystack's tail there. -/
theorem find_spec : ∀ (hay needle : Str) (i : Nat),
    find hay needle = some i → needle <+: hay.drop i ∧ i ≤ hay.length := by
  intro hay
  induction hay with
  | nil =>
    intro needle i h
    rw [find] at h
    by_cases hp : pref needle []
    · rw [if_pos hp] at h
      cases h
      exact ⟨pref_sound _ _ hp, by simp⟩
    · rw [if_neg hp] at h
      simp at h
  | cons c t ih =>
    intro needle i h
    rw [find] at h
    by_cases hp : pref needle (c :: t)
    · rw [if_pos hp] at h
      cases h
      exact ⟨pref_sound _ _ hp, by simp⟩
    · rw [if_neg hp] at h
      obtain ⟨j, hj, rfl⟩ := Option.map_eq_some'.mp h
      refine ⟨?_, ?_⟩
      · simpa using (ih needle j hj).1
      · have := (ih needle j hj).2
        simp only [List.length_cons]
        omega

-- ## `generate_chunks.py`: character offsets

/-- The result record of `calculate_char_offsets`; Python's float
confidence sentinels (`1.0`, `0.8`, `0.0`) are modelled as exact
rationals, and the `-1` index sentinels force `Int` offsets. -/
structure CharOffsets where
  char_start : Int
  char_end : Int
  source_length : Nat
  confidence : ℚ
deriving DecidableEq

/-- `calculate_char_offsets` of `generate_chunks.py` (lines 121-171).
Python's `find` returning `-1` becomes the `none` branch of `find`; the
local `chunk_stripped` / `search_portion` bindings are inlined.  In the
empty-input branch, `len(full_content) if full_content else 0` equals
`full_content.length` in both cases. -/
def calculate_char_offsets (chunk_content full_content : Str) : CharOffsets :=
  if full_content = [] ∨ chunk_content = [] then
    ⟨-1, -1, full_content.length, 0⟩
  else
    match find full_content (pyStrip chunk_content) with
    | some cs =>
      ⟨(cs : Int), ((cs + (pyStrip chunk_content).length : Nat) : Int),
        full_content.length, 1⟩
    | none =>
      match find full_content
          (if 100 < (pyStrip chunk_content).length
            then (pyStrip chunk_content).take 100
            else pyStrip chunk_content) with
      | some ps =>
        ⟨(ps : Int),
          ((min (ps + (pyStrip chunk_content).length)
              full_content.length : Nat) : Int),
          full_content.length, (4 : ℚ) / 5⟩
      | none => ⟨-1, -1, full_content.length, 0⟩

/-- Python `s[a:b]` for the non-negative, in-range indices a confident
offset computation produces. -/
def pySlice (s : Str) (a b : Int) : Str := (s.take b.toNat).drop a.toNat

-- ## Claim C6 (offset correctness)

/-- C6: whenever `calculate_char_offsets` reports confidence `1.0`,
slicing the source document from `char_start` to `char_end` yields
exactly the chunk text with surrounding whitespace stripped; and whenever
the confidence is positive, `char_end ≥ char_start`. -/
theorem offsets_exact_when_confident (chunk full : Str) :
    ((calculate_char_offsets chunk full).confidence = 1 →
      pySlice full (calculate_char_offsets chunk full).char_start
          (calculate_char_offsets chunk full).char_end = pyStrip chunk)
    ∧ (0 < (calculate_char_offsets chunk full).confidence →
      (calculate_char_offsets chunk full).char_start
        ≤ (calculate_char_offsets chunk full).char_end) := by
  set r := calculate_char_offsets chunk full with hr
  rw [calculate_char_offsets] at hr
  split at hr
  · constructor
    · intro hc; rw [hr] at hc; norm_num at hc
    · intro hc; rw [hr] at hc; norm_num at hc
  · split at hr
    · next cs hf =>
      obtain ⟨hpre, hle⟩ := find_spec full (pyStrip chunk) cs hf
      constructor
      · intro _
        rw [hr]
        simp only [pySlice, Int.toNat_natCast]
        have hdt : (full.take (cs + (pyStrip chunk).length)).drop cs
            = (full.drop cs).take (cs + (pyStrip chunk).length - cs) :=
          List.drop_take (cs + (pyStrip chunk).length) cs full
        rw [hdt]
        have : cs + (pyStrip chunk).length - cs = (pyStrip chunk).length := by
          omega
        rw [this]
        exact (List.prefix_iff_eq_take.mp hpre).symm
      · intro _
        rw [hr]
        simp only []
        have : (cs : Int) ≤ ((cs + (pyStrip chunk).length : Nat) : Int) := by
          exact_mod_cast Nat.le_add_right cs (pyStrip chunk).length
        exact this
    · split at hr
      · next ps hf2 =>
        have hle2 := (find_spec full _ ps hf2).2
        constructor
        · intro hc
          rw [hr] at hc
          norm_num at hc
        · intro _
          rw [hr]
          simp only []
          have hmin : ps ≤ min (ps + (pyStrip chunk).length) full.length :=
            le_min (Nat.le_add_right _ _) hle2
          exact_mod_cast hmin
      · constructor
        · intro hc; rw [hr] at hc; norm_num at hc
        · intro hc; rw [hr] at hc; norm_num at hc

/-- Witness for `offsets_exact_when_confident`: locating `" world "`
inside `"hello world"`. -/
theorem offsets_exact_when_confident_witness :
    pySlice ("hello world".toList)
        (calculate_char_offsets (" world ".toList) ("hello world".toList)).char_start
        (calculate_char_offsets (" world ".toList) ("hello world".toList)).char_end
      = pyStrip (" world ".toList)
    ∧ (calculate_char_offsets (" world ".toList) ("hello world".toList)).char_start
        ≤ (calculate_char_offsets (" world ".toList) ("hello world".toList)).char_end := by
  have h := offsets_exact_when_confident (" world ".toList) ("hello world".toList)
  exact ⟨h.1 (by decide), h.2 (by decide)⟩

-- ## Claim C10 (offset totality and sentinels)

/-- C10: `calculate_char_offsets` is total by construction (a Lean
function, never raising); on an empty chunk or empty/absent document it
returns the `(-1, -1, len(full), 0.0)` sentinel (with `source_length = 0`
exactly when the document is absent/empty); and the confidence is always
one of `1.0`, `0.8`, `0.0`. -/
theorem offsets_total_sentinel (chunk full : Str) :
    ((chunk = [] ∨ full = []) →
      calculate_char_offsets chunk full = ⟨-1, -1, full.length, 0⟩)
    ∧ ((calculate_char_offsets chunk full).confidence = 1
      ∨ (calculate_char_offsets chunk full).confidence = (4 : ℚ) / 5
      ∨ (calculate_char_offsets chunk full).confidence = 0) := by
  set r := calculate_char_offsets chunk full with hr
  rw [calculate_char_offsets] at hr
  split at hr
  · exact ⟨fun _ => hr, by rw [hr]; right; right; rfl⟩
  · next h0 =>
    constructor
    · intro hc
      exact absurd (hc.elim Or.inr Or.inl) h0
    · split at hr
      · rw [hr]; left; rfl
      · split at hr
        · rw [hr]; right; left; rfl
        · rw [hr]; right; right; rfl

/-- Witness for `offsets_total_sentinel`: empty chunk against `"ab"`. -/
theorem offsets_total_sentinel_witness :
    calculate_char_offsets [] ("ab".toList) = ⟨-1, -1, 2, 0⟩
    ∧ ((calculate_char_offsets [] ("ab".toList)).confidence = 1
      ∨ (calculate_char_offsets [] ("ab".toList)).confidence = (4 : ℚ) / 5
      ∨ (calculate_char_offsets [] ("ab".toList)).confidence = 0) := by
  have h := offsets_total_sentinel [] ("ab".toList)
  exact ⟨h.1 (Or.inl rfl), h.2⟩

-- ## `generate_chunks.py`: chunk assembly

/-- Split a string at the first occurrence of a character, dropping it. -/
def breakAt (c : Char) : Str → Option (Str × Str)
  | [] => none
  | d :: ds =>
    if d == c then some ([], ds)
    else (breakAt c ds).map (fun p => (d :: p.1, p.2))

/-- Modelled from the spec: `extract_markdown_links` lives in the missing
`markdown_utils` module.  The spec describes `links` as the `(text, url)`
pairs taken from the chunk's markdown, so the model scans left to right
for non-nested `[text](url)` occurrences.  Fuel decreases once per
consumed character, so `length + 1` suffices. -/
def extractAux : Nat → Str → List (Str × Str)
  | 0, _ => []
  | _ + 1, [] => []
  | fuel + 1, c :: rest =>
    if c == '[' then
      match breakAt ']' rest with
      | some (txt, '(' :: rest2) =>
        match breakAt ')' rest2 with
        | some (url, rest3) => (txt, url) :: extractAux fuel rest3
        | none => extractAux fuel rest
      | _ => extractAux fuel rest
    else extractAux fuel rest

/-- Modelled from the spec (missing `markdown_utils` module): link
extraction on a string. -/
def extract_markdown_links (s : Str) : List (Str × Str) :=
  extractAux (s.length + 1) s

/-- Modelled from the spec: `clean_markdown_text` (missing
`markdown_utils` module) strips markdown link syntax from the body used
for embedding — each `[text](url)` becomes `text`.  This captures the
aspect of cleaning the claims depend on (link markup removal). -/
def cleanAux : Nat → Str → Str
  | 0, s => s
  | _ + 1, [] => []
  | fuel + 1, c :: rest =>
    if c == '[' then
      match breakAt ']' rest with
      | some (txt, '(' :: rest2) =>
        match breakAt ')' rest2 with
        | some (_, rest3) => txt ++ cleanAux fuel rest3
        | none => c :: cleanAux fuel rest
      | _ => c :: cleanAux fuel rest
    else c :: cleanAux fuel rest

/-- Modelled from the spec (missing `markdown_utils` module): markdown
cleaning. -/
def clean_markdown_text (s : Str) : Str := cleanAux (s.length + 1) s

/-- Decimal digit character. -/
def digitChar (n : Nat) : Char := Char.ofNat (48 + n)

/-- Decimal rendering of a natural number (for the `ch{n}` id suffix),
with fuel so it evaluates inside the kernel. -/
def natStrAux : Nat → Nat → Str
  | 0, _ => []
  | fuel + 1, n =>
    if n < 10 then [digitChar n]
    else natStrAux fuel (n / 10) ++ [digitChar (n % 10)]

/-- Decimal rendering of a natural number. -/
def natStr (n : Nat) : Str := natStrAux (n + 1) n

/-- A surviving first-pass chunk of `chunk_content_with_langchain`:
`content` is the cleaned text, `markdown_content` the raw splitter
output, `chunk_num` the position among the kept chunks.  (The `heading`
field is omitted; no claim reads it.) -/
structure Temp where
  content : Str
  markdown_content : Str
  chunk_num : Nat
deriving DecidableEq

/-- First pass of `chunk_content_with_langchain` (lines 67-83): skip
splitter outputs whose cleaned text counts below `min_chunk_tokens`;
`chunk_num` is `len(temp_chunks)` at append time — the index among the
survivors (a skip does not advance it). -/
def first_pass (clean : Str → Str) (tokc : Str → Nat) (minTok : Nat) :
    Nat → List Str → List Temp
  | _, [] => []
  | k, c :: cs =>
    if tokc (clean c) < minTok then first_pass clean tokc minTok k cs
    else ⟨clean c, c, k⟩ :: first_pass clean tokc minTok (k + 1) cs

/-- The chunk record of `create_chunk` restricted to the fields the
claims read (`embed_text`, `heading`, the header context, `token_count`
and the content hashes are omitted — they depend on the missing
`markdown_utils` / `process_blog` collaborators and no claim constrains
them). -/
structure GChunk where
  id : Str
  parent_id : Str
  prev_id : Option Str
  next_id : Option Str
  chunk_number : Nat
  links : List (Str × Str)
  display_markdown : Str
  char_offsets : CharOffsets
deriving DecidableEq

/-- `create_chunk` of `generate_chunks.py` (lines 173-242) on the
modelled fields.  Note that the source computes
`chunk_links = extract_markdown_links(content)` from the `content`
argument — which the caller binds to the *cleaned* first-pass text.
`markdown_chunk_content` and `full_content` are tested with Python
truthiness, so `[]` stands for both `None` and the empty string. -/
def create_chunk (content : Str) (slug : Str) (chunk_num : Nat)
    (content_type : Str) (prev_id next_id : Option Str)
    (full_content markdown_chunk_content : Str) : GChunk :=
  let offset_content :=
    if markdown_chunk_content = [] then content else markdown_chunk_content
  let parent_id := content_type ++ (":".toList) ++ slug
  { id := parent_id ++ ("::ch".toList) ++ natStr chunk_num
    parent_id := parent_id
    prev_id := prev_id
    next_id := next_id
    chunk_number := chunk_num
    links := extract_markdown_links content
    display_markdown :=
      if markdown_chunk_content = [] then content else markdown_chunk_content
    char_offsets :=
      if full_content = [] then ⟨-1, -1, 0, 0⟩
      else calculate_char_offsets offset_content full_content }

/-- The loop body of the second pass of `chunk_content_with_langchain`
(lines 89-105): `prev_id`/`next_id` come from the enumeration index
`it.1` and `n = len(temp_chunks)`, with `parent_id = "post:" + slug`. -/
def second_pass_item (slug content : Str) (n : Nat) (it : Nat × Temp) :
    GChunk :=
  create_chunk it.2.content slug it.2.chunk_num ("post".toList)
    (if 0 < it.1
      then some ((("post:".toList) ++ slug) ++ ("::ch".toList) ++ natStr (it.1 - 1))
      else none)
    (if it.1 < n - 1
      then some ((("post:".toList) ++ slug) ++ ("::ch".toList) ++ natStr (it.1 + 1))
      else none)
    content it.2.markdown_content

/-- `chunk_content_with_langchain` (lines 37-107) from the splitter
output onward: LangChain's `split_text` is an external collaborator, so
its output `text_chunks` is a parameter, as are the (missing-module)
cleaning function and the token counter. -/
def chunk_content_with_langchain (clean : Str → Str) (tokc : Str → Nat)
    (minTok : Nat) (slug content : Str) (text_chunks : List Str) :
    List GChunk :=
  let temps := first_pass clean tokc minTok 0 text_chunks
  temps.enum.map (second_pass_item slug content temps.length)

-- ## Linkage and filtering lemmas

theorem enumFrom_get? {α : Type} :
    ∀ (l : List α) (n i : Nat),
      (l.enumFrom n).get? i = (l.get? i).map (fun a => (n + i, a)) := by
  intro l
  induction l with
  | nil => intro n i; simp [List.enumFrom]
  | cons x xs ih =>
    intro n i
    cases i with
    | zero => simp [List.enumFrom]
    | succ i =>
      have h := ih (n + 1) i
      have he : n + 1 + i = n + (i + 1) := by omega
      simp only [List.enumFrom, List.get?_cons_succ]
      rw [h, he]

theorem enumFrom_map_of_snd {α β : Type} (g : Nat × α → β) (h : α → β)
    (hg : ∀ (i : Nat) (t : α), g (i, t) = h t) :
    ∀ (l : List α) (n : Nat), (l.enumFrom n).map g = l.map h := by
  intro l
  induction l with
  | nil => intro n; rfl
  | cons x xs ih =>
    intro n
    simp only [List.enumFrom, List.map_cons, hg, ih]

theorem first_pass_num (clean : Str → Str) (tokc : Str → Nat) (minTok : Nat) :
    ∀ (txts : List Str) (k j : Nat) (t : Temp),
      (first_pass clean tokc minTok k txts).get? j = some t →
      t.chunk_num = k + j := by
  intro txts
  induction txts with
  | nil => intro k j t h; simp [first_pass] at h
  | cons c cs ih =>
    intro k j t h
    simp only [first_pass] at h
    by_cases hc : tokc (clean c) < minTok
    · rw [if_pos hc] at h
      exact ih k j t h
    · rw [if_neg hc] at h
      cases j with
      | zero =>
        simp only [List.get?_cons_zero, Option.some.injEq] at h
        subst h
        simp
      | succ j =>
        have := ih (k + 1) j t (by simpa using h)
        omega

theorem first_pass_markdown (clean : Str → Str) (tokc : Str → Nat)
    (minTok : Nat) :
    ∀ (txts : List Str) (k : Nat),
      (first_pass clean tokc minTok k txts).map Temp.markdown_content
        = txts.filter (fun c => decide (minTok ≤ tokc (clean c))) := by
  intro txts
  induction txts with
  | nil => intro k; rfl
  | cons c cs ih =>
    intro k
    simp only [first_pass]
    by_cases hc : tokc (clean c) < minTok
    · rw [if_pos hc, List.filter_cons]
      have : ¬ (minTok ≤ tokc (clean c)) := by omega
      simp [this, ih]
    · rw [if_neg hc, List.filter_cons]
      have : minTok ≤ tokc (clean c) := by omega
      simp [this, ih]

theorem first_pass_markdown_mem (clean : Str → Str) (tokc : Str → Nat)
    (minTok : Nat) :
    ∀ (txts : List Str) (k : Nat) (t : Temp),
      t ∈ first_pass clean tokc minTok k txts → t.markdown_content ∈ txts := by
  intro txts
  induction txts with
  | nil => intro k t h; simp [first_pass] at h
  | cons c cs ih =>
    intro k t h
    simp only [first_pass] at h
    by_cases hc : tokc (clean c) < minTok
    · rw [if_pos hc] at h
      exact List.mem_cons_of_mem c (ih k t h)
    · rw [if_neg hc] at h
      rcases List.mem_cons.mp h with h | h
      · subst h; simp
      · exact List.mem_cons_of_mem c (ih (k + 1) t h)

theorem chunk_content_length (clean : Str → Str) (tokc : Str → Nat)
    (minTok : Nat) (slug content : Str) (txts : List Str) :
    (chunk_content_with_langchain clean tokc minTok slug content txts).length
      = (first_pass clean tokc minTok 0 txts).length := by
  simp only [chunk_content_with_langchain]
  simp [List.enum_length]

theorem chunk_content_get? (clean : Str → Str) (tokc : Str → Nat)
    (minTok : Nat) (slug content : Str) (txts : List Str) (i : Nat) :
    (chunk_content_with_langchain clean tokc minTok slug content txts).get? i
      = ((first_pass clean tokc minTok 0 txts).get? i).map
          (fun t => second_pass_item slug content
            (first_pass clean tokc minTok 0 txts).length (i, t)) := by
  simp only [chunk_content_with_langchain]
  rw [show (first_pass clean tokc minTok 0 txts).enum
      = (first_pass clean tokc minTok 0 txts).enumFrom 0 from rfl]
  rw [List.get?_map, enumFrom_get?]
  cases (first_pass clean tokc minTok 0 txts).get? i <;> simp

theorem post_colon : (("post:".toList) : Str) = ("post".toList) ++ (":".toList) := by
  decide

-- ## Claim C5 (sequential linkage)

/-- C5: for every document (any cleaning function, token counter,
threshold and splitter output), consecutive emitted chunks are linked:
chunk `i`'s `next_id` equals chunk `i+1`'s `id` and chunk `i+1`'s
`prev_id` equals chunk `i`'s `id`; the first chunk has no `prev_id` and
the last chunk has no `next_id`. -/
theorem linkage_consistent (clean : Str → Str) (tokc : Str → Nat)
    (minTok : Nat) (slug content : Str) (txts : List Str) :
    (∀ (i : Nat) (a b : GChunk),
        (chunk_content_with_langchain clean tokc minTok slug content txts).get?
            i = some a →
        (chunk_content_with_langchain clean tokc minTok slug content txts).get?
            (i + 1) = some b →
        a.next_id = some b.id ∧ b.prev_id = some a.id)
    ∧ (∀ a : GChunk,
        (chunk_content_with_langchain clean tokc minTok slug content txts).get?
            0 = some a →
        a.prev_id = none)
    ∧ (∀ a : GChunk,
        (chunk_content_with_langchain clean tokc minTok slug content txts).get?
            ((chunk_content_with_langchain clean tokc minTok slug
                content txts).length - 1) = some a →
        a.next_id = none) := by
  refine ⟨?_, ?_, ?_⟩
  · intro i a b ha hb
    rw [chunk_content_get?] at ha hb
    obtain ⟨t, ht, rfl⟩ := Option.map_eq_some'.mp ha
    obtain ⟨t2, ht2, rfl⟩ := Option.map_eq_some'.mp hb
    have hlen : i + 1 < (first_pass clean tokc minTok 0 txts).length :=
      (List.get?_eq_some.mp ht2).1
    have hnum : t.chunk_num = i := by
      have := first_pass_num clean tokc minTok txts 0 i t ht
      omega
    have hnum2 : t2.chunk_num = i + 1 := by
      have := first_pass_num clean tokc minTok txts 0 (i + 1) t2 ht2
      omega
    constructor
    · simp only [second_pass_item, create_chunk]
      rw [if_pos (show i < (first_pass clean tokc minTok 0 txts).length - 1 by
        omega)]
      rw [hnum2]
      simp [post_colon, List.append_assoc]
    · simp only [second_pass_item, create_chunk]
      rw [if_pos (Nat.succ_pos i)]
      rw [hnum]
      simp [post_colon, List.append_assoc]
  · intro a ha
    rw [chunk_content_get?] at ha
    obtain ⟨t, ht, rfl⟩ := Option.map_eq_some'.mp ha
    simp [second_pass_item, create_chunk]
  · intro a ha
    rw [chunk_content_length, chunk_content_get?] at ha
    obtain ⟨t, ht, rfl⟩ := Option.map_eq_some'.mp ha
    simp only [second_pass_item, create_chunk]
    rw [if_neg (by omega)]

/-- Witness for `linkage_consistent`: two surviving chunks of a concrete
document, with fully evaluated records. -/
theorem linkage_consistent_witness :
    GChunk.next_id
        ⟨("post:slg::ch0".toList), ("post:slg".toList), none,
          some ("post:slg::ch1".toList), 0, [], ("aaaa".toList), ⟨0, 4, 8, 1⟩⟩
      = some (GChunk.id
        ⟨("post:slg::ch1".toList), ("post:slg".toList),
          some ("post:slg::ch0".toList), none, 1, [], ("bbbb".toList),
          ⟨4, 8, 8, 1⟩⟩)
    ∧ GChunk.prev_id
        ⟨("post:slg::ch1".toList), ("post:slg".toList),
          some ("post:slg::ch0".toList), none, 1, [], ("bbbb".toList),
          ⟨4, 8, 8, 1⟩⟩
      = some (GChunk.id
        ⟨("post:slg::ch0".toList), ("post:slg".toList), none,
          some ("post:slg::ch1".toList), 0, [], ("aaaa".toList), ⟨0, 4, 8, 1⟩⟩) :=
  (linkage_consistent (fun s => s) (fun _ => 1) 0 ("slg".toList)
      ("aaaabbbb".toList) [("aaaa".toList), ("bbbb".toList)]).1 0
    ⟨("post:slg::ch0".toList), ("post:slg".toList), none,
      some ("post:slg::ch1".toList), 0, [], ("aaaa".toList), ⟨0, 4, 8, 1⟩⟩
    ⟨("post:slg::ch1".toList), ("post:slg".toList),
      some ("post:slg::ch0".toList), none, 1, [], ("bbbb".toList), ⟨4, 8, 8, 1⟩⟩
    (by decide) (by decide)

-- ## Claim C7 (minimum-size dropping)

/-- C7: in `chunk_content_with_langchain`, dropping below-minimum chunks
happens only in the first pass, before chunk records exist: the emitted
chunks' raw texts are exactly the splitter outputs whose cleaned text
meets `min_chunk_tokens` (an order-preserving filter), and the second
pass emits exactly one record per survivor — no assembled chunk is ever
silently dropped.  (The hypothesis excludes empty splitter outputs, for
which Python's truthiness test would fall back to the cleaned text as
`display_markdown`.) -/
theorem min_drop_only_first_pass (clean : Str → Str) (tokc : Str → Nat)
    (minTok : Nat) (slug content : Str) (txts : List Str)
    (hne : ∀ c ∈ txts, c ≠ []) :
    (chunk_content_with_langchain clean tokc minTok slug content txts).map
        GChunk.display_markdown
      = txts.filter (fun c => decide (minTok ≤ tokc (clean c)))
    ∧ (chunk_content_with_langchain clean tokc minTok slug content
        txts).length
      = (first_pass clean tokc minTok 0 txts).length := by
  refine ⟨?_, chunk_content_length clean tokc minTok slug content txts⟩
  simp only [chunk_content_with_langchain]
  rw [List.map_map]
  rw [show (first_pass clean tokc minTok 0 txts).enum
      = (first_pass clean tokc minTok 0 txts).enumFrom 0 from rfl]
  rw [enumFrom_map_of_snd _
    (fun t : Temp =>
      if t.markdown_content = [] then t.content else t.markdown_content)
    (fun i t => by simp [second_pass_item, create_chunk])
    (first_pass clean tokc minTok 0 txts) 0]
  have hmap : (first_pass clean tokc minTok 0 txts).map
      (fun t : Temp =>
        if t.markdown_content = [] then t.content else t.markdown_content)
      = (first_pass clean tokc minTok 0 txts).map Temp.markdown_content := by
    apply List.map_congr_left
    intro t htmem
    exact if_neg
      (hne t.markdown_content
        (first_pass_markdown_mem clean tokc minTok txts 0 t htmem))
  rw [hmap, first_pass_markdown]

/-- Witness for `min_drop_only_first_pass`: a document whose second
splitter output falls below the threshold after cleaning. -/
theorem min_drop_only_first_pass_witness :
    (chunk_content_with_langchain (fun s => s) genTok 1 ("s".toList)
        ("aaaabbbb".toList) [("aaaa".toList), ("b".toList)]).map
        GChunk.display_markdown
      = ([("aaaa".toList), ("b".toList)] : List Str).filter
          (fun c => decide (1 ≤ genTok ((fun s : Str => s) c)))
    ∧ (chunk_content_with_langchain (fun s => s) genTok 1 ("s".toList)
        ("aaaabbbb".toList) [("aaaa".toList), ("b".toList)]).length
      = (first_pass (fun s => s) genTok 1 0
          [("aaaa".toList), ("b".toList)]).length :=
  min_drop_only_first_pass (fun s => s) genTok 1 ("s".toList)
    ("aaaabbbb".toList) [("aaaa".toList), ("b".toList)] (by decide)

-- ## Claim C8 (link extraction order)

/-- C8 (code bug): `create_chunk` computes
`chunk_links = extract_markdown_links(content)` from its `content`
argument, which the caller binds to the *cleaned* first-pass text — not
the raw markdown — although the function's own comment reads "Extract
links before cleaning the content" and the spec requires extraction on
the raw form.  On a chunk whose raw markdown is
`"See [docs](http://x) now."`, the emitted `links` field is empty, while
extraction on the raw form yields `[("docs", "http://x")]`. -/
theorem links_extracted_from_cleaned :
    (chunk_content_with_langchain clean_markdown_text genTok 0 ("s".toList)
        ("See [docs](http://x) now.".toList)
        [("See [docs](http://x) now.".toList)]).map GChunk.links
      = [[]]
    ∧ extract_markdown_links ("See [docs](http://x) now.".toList)
      = [(("docs".toList), ("http://x".toList))]
    ∧ ([] : List (Str × Str)) ≠ [(("docs".toList), ("http://x".toList))] :=
  ⟨by decide, by decide, by decide⟩
